import Mathlib

/-!
A verification development for the poem-extraction core of `parser.py`
(poesy-maker).  The Python source is shallowly embedded: strings are
`List Char`, each Python function becomes a computable Lean definition,
and the regular expressions used by the source are modelled by explicit
scanning functions that follow the backtracking behaviour of Python's
`re` module on the patterns in question.  Code that can raise an
uncaught Python exception is modelled with `Except Unit`, where
`Except.error ()` marks the raised exception.
-/

namespace Poesy

/-- Convenience: the character list of a string literal. -/
def str (s : String) : List Char := s.data

/-- The whitespace test used by Python's `str.strip()` (no arguments) and by
the regex class `\s`: space, tab, newline, carriage return, vertical tab,
form feed.  Python additionally treats the separator control characters
`0x1c`-`0x1f`, `0x85` and the non-ASCII Unicode spaces as whitespace; the
source is a plain-text poem document, and the claims' inputs stay in the
printable range, so those characters are outside the modelled range. -/
def pyIsSpace (c : Char) : Bool :=
  c = ' ' || c = '\t' || c = '\n' || c = '\r' || c = '\x0b' || c = '\x0c'

/-- Drop trailing elements satisfying `p` (helper for the Python
`strip`-style operations). -/
def rdropWhile {α : Type} (p : α → Bool) (l : List α) : List α :=
  (l.reverse.dropWhile p).reverse

/-- Python `str.strip()`: remove leading and trailing whitespace. -/
def pystrip (l : List Char) : List Char :=
  rdropWhile pyIsSpace (l.dropWhile pyIsSpace)

/-- A line is blank when it strips to the empty string (Python falsiness of
`line.strip()`). -/
def blankL (l : List Char) : Bool :=
  (pystrip l).isEmpty

/-- Python `raw.split("\n")` (`parser.py` line 70).  Always returns at least
one piece; the separator is not kept. -/
def splitNl : List Char → List (List Char)
  | [] => [[]]
  | c :: rest =>
    if c = '\n' then [] :: splitNl rest
    else
      match splitNl rest with
      | l :: ls => (c :: l) :: ls
      | [] => [[c]]

/-- Drop trailing blank lines (the `while lines and not lines[-1].strip()`
loops of `parser.py`). -/
def rdropBlank (ls : List (List Char)) : List (List Char) :=
  rdropWhile blankL ls

/-- Does `pat` occur at the start of `cs`? -/
def startsWithL : List Char → List Char → Bool
  | [], _ => true
  | _ :: _, [] => false
  | p :: ps, c :: cs => p = c && startsWithL ps cs

/-- Does `pat` occur as a contiguous substring of `cs`? -/
def hasSub (pat : List Char) : List Char → Bool
  | [] => pat.isEmpty
  | c :: cs => startsWithL pat (c :: cs) || hasSub pat cs

/-! ## Identifier Deriver: `slugify` (`parser.py` lines 17-24) -/

/-- `unicodedata.normalize("NFKD", text)` (`parser.py` line 19), modelled
on its restriction to ASCII strings, where Unicode normalization is the
identity (every ASCII code point is its own NFKD normal form).  All slug
claims quantify over ASCII input, and every slug output is ASCII, so the
non-trivial part of NFKD (decomposing accented characters) is outside the
modelled input range. -/
def nfkdAscii (l : List Char) : List Char := l

/-- ASCII test used by `text.encode("ascii", "ignore")` (`parser.py`
line 20): characters with code point above 127 are dropped. -/
def isAsciiC (c : Char) : Bool := c.toNat ≤ 127

/-- Python `str.lower()` on the ASCII range (`parser.py` line 21): map
`A`-`Z` to `a`-`z`, leave everything else unchanged.  `slugify` applies it
after the ASCII filter, so its argument characters are always ASCII. -/
def pyLower (c : Char) : Char :=
  if 65 ≤ c.toNat ∧ c.toNat ≤ 90 then Char.ofNat (c.toNat + 32) else c

/-- Character class `[a-z0-9]` of the substitution regex
(`parser.py` line 22). -/
def isLowerAlnum (c : Char) : Bool :=
  (97 ≤ c.toNat && c.toNat ≤ 122) || (48 ≤ c.toNat && c.toNat ≤ 57)

/-- `re.sub(r"[^a-z0-9]+", "-", text)` (`parser.py` line 22): replace every
maximal run of characters outside `[a-z0-9]` with a single hyphen.  The
flag records whether the scanner is inside a run that has already emitted
its hyphen. -/
def subRunsAux : Bool → List Char → List Char
  | _, [] => []
  | inRun, c :: rest =>
    if isLowerAlnum c then c :: subRunsAux false rest
    else if inRun then subRunsAux true rest
    else '-' :: subRunsAux true rest

/-- `text.strip("-")` (`parser.py` line 23). -/
def stripHyphens (l : List Char) : List Char :=
  rdropWhile (fun c => c = '-') (l.dropWhile (fun c => c = '-'))

/-- `slugify` (`parser.py` lines 17-24). -/
def slugify (l : List Char) : List Char :=
  stripHyphens (subRunsAux false ((nfkdAscii l).filter isAsciiC |>.map pyLower))

/-- Checker for the slug invariant: no two consecutive hyphens. -/
def noDoubleHyphen : List Char → Bool
  | [] => true
  | [_] => true
  | a :: b :: rest => !(a = '-' && b = '-') && noDoubleHyphen (b :: rest)

/-- The input alphabet of the slug claim: ASCII letters, digits and
spaces. -/
def isTitleChar (c : Char) : Bool :=
  (65 ≤ c.toNat && c.toNat ≤ 90) || (97 ≤ c.toNat && c.toNat ≤ 122) ||
    (48 ≤ c.toNat && c.toNat ≤ 57) || c = ' '

/-! ## Known-Author Matcher (`parser.py` lines 150-171) -/

/-- The fixed reference set `_KNOWN_AUTHORS` (`parser.py` lines 151-163). -/
def KNOWN_AUTHORS : List (List Char) :=
  [str "Paul Celan", str "Mary Oliver", str "Amiri Baraka",
   str "Rabia al-Basri", str "Constantine P. Cavafy", str "Ingeborg Bachmann",
   str "Yehuda Amichai", str "Pablo Neruda", str "Stephen Dobyns",
   str "Anne Sexton", str "Delmore Schwartz"]

/-- `re.sub(r"\s*\(.*\)\s*$", "", text)` for a stripped `text`
(`parser.py` line 170).  On a stripped string the pattern matches exactly
when the string ends with a closing parenthesis and an opening parenthesis
occurs before it; the leftmost match starts at the first opening
parenthesis, pulled back over the whitespace run immediately preceding it,
so the substitution keeps the text before that point. -/
def stripParenSuffix (t : List Char) : List Char :=
  if t.getLast? = some ')' && t.contains '(' then
    rdropWhile pyIsSpace (t.takeWhile (fun c => c ≠ '('))
  else t

/-- `_is_known_author` (`parser.py` lines 166-171). -/
def isKnownAuthor (text : List Char) : Bool :=
  KNOWN_AUTHORS.contains (stripParenSuffix (pystrip text))

/-! ## Header regular expressions (`parser.py` lines 88, 102, 109-111) -/

/-- `re.match(r"^--\s*(.+)$", line)`, returning the captured group.  After
the literal hyphens `\s*` is greedy; if nothing is left for `.+` the engine
gives back one whitespace character, which becomes the whole group. -/
def trailingMatch (line : List Char) : Option (List Char) :=
  match line with
  | '-' :: '-' :: rest =>
    if rest.isEmpty then none
    else
      let g := rest.dropWhile pyIsSpace
      if !g.isEmpty then some g
      else
        match rest.reverse with
        | c :: _ => some [c]
        | [] => none
  | _ => none

/-- `re.match(r"^[Bb]y\s+(.+)$", line)`, returning the captured group.
`\s+` is greedy; if nothing remains for `.+` and the whitespace run has at
least two characters, the engine gives back one whitespace character as
the group. -/
def byMatch (line : List Char) : Option (List Char) :=
  match line with
  | b :: y :: rest =>
    if (b = 'B' || b = 'b') && y = 'y' then
      let w := rest.takeWhile pyIsSpace
      if w.isEmpty then none
      else
        let rem := rest.drop w.length
        if !rem.isEmpty then some rem
        else if 2 ≤ w.length then
          match rest.reverse with
          | c :: _ => some [c]
          | [] => none
        else none
    else none
  | _ => none

/-- `re.match(r"^[Tt]ranslated\s+[Bb]y\s+", line)` as a Boolean test.
Only the initial letters of the two words admit both cases; `\s+`
requires at least one whitespace character in each gap and after `y`. -/
def translatedMatch (line : List Char) : Bool :=
  match line with
  | c :: rest =>
    if (c = 'T' || c = 't') && rest.take 9 = str "ranslated" then
      let r := rest.drop 9
      let w := r.takeWhile pyIsSpace
      if w.isEmpty then false
      else
        match r.drop w.length with
        | b :: y :: r2 =>
          (b = 'B' || b = 'b') && y = 'y' && !(r2.takeWhile pyIsSpace).isEmpty
        | _ => false
    else false
  | [] => false

/-! ## Chunk Parser: `parse_poem_chunk` (`parser.py` lines 59-147) -/

/-- A parsed chunk: the dict returned by `parse_poem_chunk`
(`parser.py` lines 143-147).  `author = none` models Python `None`. -/
structure Parsed where
  title : List Char
  author : Option (List Char)
  body : List Char
deriving DecidableEq, Repr

/-- Python truthiness of the optional `author` variables: both `None` and
the empty string are falsy (`parser.py` line 133). -/
def pyFalsy (o : Option (List Char)) : Bool :=
  match o with
  | none => true
  | some s => s.isEmpty

/-- Lines of the chunk with leading and trailing blank lines removed
(`parser.py` lines 70-76). -/
def trimmedLines (raw : List Char) : List (List Char) :=
  rdropBlank ((splitNl raw).dropWhile blankL)

/-- The trailing-attribution step (`parser.py` lines 85-94): if the last
line (stripped) matches `^--\s*(.+)$`, capture the stripped group as the
trailing author, drop that line and any blank lines this exposes. -/
def splitTrailing (lines : List (List Char)) :
    Option (List Char) × List (List Char) :=
  match trailingMatch (pystrip (lines.getLast?.getD [])) with
  | some g => (some (pystrip g), rdropBlank lines.dropLast)
  | none => (none, lines)

/-- The header classification cascade (`parser.py` lines 96-130), given
the post-attribution lines and the stripped first line; returns
`(title, header author, body start index)`. -/
def headerCascade (lines : List (List Char)) (first_line : List Char) :
    List Char × Option (List Char) × Nat :=
  match lines with
  | _ :: second :: rest =>
    let second_line := pystrip second
    match byMatch second_line with
    | some g =>
      let bodyStart :=
        match rest with
        | third :: _ => if translatedMatch (pystrip third) then 3 else 2
        | [] => 2
      (first_line, some (pystrip g), bodyStart)
    | none =>
      if isKnownAuthor second_line then (first_line, some second_line, 2)
      else if isKnownAuthor first_line && !isKnownAuthor second_line then
        (second_line, some first_line, 2)
      else (first_line, none, 1)
  | _ => (first_line, none, 1)

/-- The one header shape on which the cascade produces an empty title:
a known author name on line 1 with a blank line 2, which triggers the
reversed `Author\nTitle` rule with a blank title line
(`parser.py` lines 118-122). -/
def reversedBlankShape (ls : List (List Char)) : Bool :=
  match ls with
  | f :: s :: _ => blankL s && isKnownAuthor (pystrip f)
  | _ => false

/-- `parse_poem_chunk` (`parser.py` lines 59-147).  `Except.error ()`
models the uncaught `IndexError` raised by `lines[0]` on line 97 when the
list is empty after the trailing-attribution line was removed. -/
def parse_poem_chunk (raw : List Char) : Except Unit (Option Parsed) :=
  let l2 := trimmedLines raw
  if l2.isEmpty then Except.ok none
  else
    let ta := (splitTrailing l2).1
    let l3 := (splitTrailing l2).2
    match l3 with
    | [] => Except.error ()
    | f :: _ =>
      let first_line := pystrip f
      let tab := headerCascade l3 first_line
      let author := if pyFalsy tab.2.1 && !pyFalsy ta then ta else tab.2.1
      let bodyLines := (l3.drop tab.2.2).dropWhile blankL
      Except.ok (some ⟨tab.1, author, List.intercalate ['\n'] bodyLines⟩)

/-! ## Chunk Splitter: `split_poems` (`parser.py` lines 27-56) -/

/-- First match of `\n_{4,}\n?` in `cs` (`re.split`, `parser.py` line 33):
returns the absolute start and end offsets of the leftmost match.  `n` is
the offset of `cs` inside the whole document.  `_{4,}` greedily takes the
whole underscore run (a newline always ends it), and `\n?` greedily takes
one following newline when present. -/
def findDelimAux : List Char → Nat → Option (Nat × Nat)
  | [], _ => none
  | c :: rest, n =>
    if c = '\n' then
      let us := rest.takeWhile (fun d => d = '_')
      if 4 ≤ us.length then
        let after := rest.drop us.length
        some (n, n + 1 + us.length + (if after.head? = some '\n' then 1 else 0))
      else findDelimAux rest (n + 1)
    else findDelimAux rest (n + 1)

/-- `re.split(r"\n_{4,}\n?", text)` (`parser.py` line 33): cut out each
successive leftmost match.  `fuel` bounds the recursion; every match
consumes at least five characters, so `text.length` steps suffice. -/
def resplitF : Nat → List Char → List (List Char)
  | 0, cs => [cs]
  | fuel + 1, cs =>
    match findDelimAux cs 0 with
    | none => [cs]
    | some (s, e) => cs.take s :: resplitF fuel (cs.drop e)

/-- `re.split(r"\n_{4,}\n?", text)` with sufficient fuel. -/
def resplit (cs : List Char) : List (List Char) :=
  resplitF cs.length cs

/-- One attempt of `--\s*.+$\n(\s*\n){2,}` after the literal hyphens, with
the `\s*` group taking `k` characters (all within the leading whitespace
run of `r`); on failure the engine retries with `k - 1`.  `.+` must reach
the end of its line for `$` to hold, and the trailing repetition greedily
takes the longest whitespace prefix that ends in a newline, failing unless
it contains at least two newlines.  Returns the match length after the
hyphens. -/
def matchTATry (r : List Char) (k : Nat) : Option Nat :=
  let afterU := r.drop k
  let v := afterU.takeWhile (fun c => c ≠ '\n')
  if v.isEmpty then none
  else
    match afterU.drop v.length with
    | '\n' :: rest2 =>
      let w := rest2.takeWhile pyIsSpace
      let w' := (w.reverse.dropWhile (fun c => c ≠ '\n')).reverse
      if 2 ≤ w'.count '\n' then some (k + v.length + 1 + w'.length)
      else none
    | _ => none

/-- Backtracking loop over the `\s*` length, from greedy down to zero. -/
def matchTAU (r : List Char) : Nat → Option Nat
  | 0 => matchTATry r 0
  | k + 1 =>
    match matchTATry r (k + 1) with
    | some m => some m
    | none => matchTAU r k

/-- Match of `^(--\s*.+)$\n(\s*\n){2,}` anchored at a line start
(`parser.py` line 48): two literal hyphens, then the backtracking search
of `matchTAU` starting from the greedy (longest) `\s*`.  Returns the match
length. -/
def matchTAAt (cs : List Char) : Option Nat :=
  match cs with
  | '-' :: '-' :: r =>
    match matchTAU r (r.takeWhile pyIsSpace).length with
    | some m => some (2 + m)
    | none => none
  | _ => none

/-- `re.search` of the multiline pattern over the chunk: try each line
start from the left, returning the absolute end offset of the first
match.  `n` is the current absolute offset. -/
def searchTAAux : Nat → List Char → Nat → Option Nat
  | 0, _, _ => none
  | fuel + 1, cs, n =>
    match matchTAAt cs with
    | some m => some (n + m)
    | none =>
      match cs.dropWhile (fun c => c ≠ '\n') with
      | [] => none
      | _ :: tl =>
        searchTAAux fuel tl (n + (cs.takeWhile (fun c => c ≠ '\n')).length + 1)

/-- Leftmost match end of `^(--\s*.+)$\n(\s*\n){2,}` (re.MULTILINE) in the
chunk, when one exists. -/
def searchTA (cs : List Char) : Option Nat :=
  searchTAAux (cs.length + 1) cs 0

/-- `_split_on_trailing_author` (`parser.py` lines 45-56) with explicit
fuel; each recursive step removes at least the matched characters, so
`chunk.length` steps suffice. -/
def sotaF : Nat → List Char → List (List Char)
  | 0, chunk => [chunk]
  | fuel + 1, chunk =>
    match searchTA chunk with
    | none => [chunk]
    | some e =>
      let first := pystrip (chunk.take e)
      let rest := pystrip (chunk.drop e)
      if !first.isEmpty && !rest.isEmpty then first :: sotaF fuel rest
      else [chunk]

/-- `_split_on_trailing_author` (`parser.py` lines 45-56). -/
def splitOnTrailingAuthor (chunk : List Char) : List (List Char) :=
  sotaF chunk.length chunk

/-- `split_poems` (`parser.py` lines 27-42): primary split on the
underscore separators, strip each piece and discard the empty ones, then
apply the secondary split to each chunk. -/
def split_poems (text : List Char) : List (List Char) :=
  let chunks := ((resplit text).map pystrip).filter (fun c => !c.isEmpty)
  (chunks.map splitOnTrailingAuthor).flatten

/-! ## Override Applicator (`parser.py` lines 174-181, 196-210) -/

/-- JSON values, as produced by Python's `json.load`.  Object keys are the
parsed dict's keys (unique). -/
inductive Json where
  | null : Json
  | boolean : Bool → Json
  | num : Int → Json
  | strv : List Char → Json
  | arr : List Json → Json
  | obj : List (List Char × Json) → Json

/-- Lookup in a parsed JSON object (Python `dict.get`); keys are unique so
the first binding decides. -/
def lookupJ : List (List Char × Json) → List Char → Option Json
  | [], _ => none
  | (k, v) :: rest, key => if k = key then some v else lookupJ rest key

/-- The possible states of the override store `authors.json`, the explicit
state for the file I/O in `load_author_overrides` (`parser.py` lines
174-181): the file may be absent (`FileNotFoundError`), unreadable
(`PermissionError` or another `OSError` from `open`/`read`), syntactically
invalid JSON (`json.JSONDecodeError`), or readable with parsed value
`j`. -/
inductive StoreState where
  | absent : StoreState
  | unreadable : StoreState
  | badSyntax : StoreState
  | content : Json → StoreState

/-- `load_author_overrides` (`parser.py` lines 174-181).  The `try` block
catches only `FileNotFoundError` and `json.JSONDecodeError`; an unreadable
file raises an uncaught `PermissionError`, and a well-formed JSON value
that is not an object makes `data.get("overrides", {})` raise an uncaught
`AttributeError` — both modelled by `Except.error ()`.  A parsed object
yields its `"overrides"` entry, defaulting to the empty dict. -/
def load_author_overrides : StoreState → Except Unit Json
  | .absent => .ok (.obj [])
  | .unreadable => .error ()
  | .badSyntax => .ok (.obj [])
  | .content j =>
    match j with
    | .obj kvs => .ok ((lookupJ kvs (str "overrides")).getD (.obj []))
    | _ => .error ()

/-! ## Poem Record Assembler: `fetch_and_parse` (`parser.py` lines 184-212)

The network fetch (`fetch_doc_text`) is outside the core; the assembler is
modelled as a function of the fetched document text and the loaded
override mapping, exactly the loop of lines 190-212. -/

/-- A poem record (`parser.py` lines 202-210). -/
structure Poem where
  index : Nat
  title : List Char
  author : Option (List Char)
  slug : List Char
  body : List Char
deriving DecidableEq, Repr

/-- Lookup in the override mapping (`slug in overrides` /
`overrides[slug]`); dict keys are unique so the first binding decides. -/
def lookupOv : List (List Char × List Char) → List Char → Option (List Char)
  | [], _ => none
  | (k, v) :: rest, key => if k = key then some v else lookupOv rest key

/-- The loop body of `fetch_and_parse` (`parser.py` lines 190-211) over
the chunk list, carrying the `enumerate` counter `i`: parse each chunk,
skip falsy results, slugify the title, apply the author override, and
emit the record with `index = i + 1`.  A parse error propagates. -/
def assembleGo (overrides : List (List Char × List Char)) :
    Nat → List (List Char) → Except Unit (List Poem)
  | _, [] => .ok []
  | i, c :: cs =>
    match parse_poem_chunk c with
    | .error e => .error e
    | .ok none => assembleGo overrides (i + 1) cs
    | .ok (some p) =>
      let slug := slugify p.title
      let author :=
        match lookupOv overrides slug with
        | some v => some v
        | none => p.author
      match assembleGo overrides (i + 1) cs with
      | .error e => .error e
      | .ok ps => .ok (⟨i + 1, p.title, author, slug, p.body⟩ :: ps)

/-- `fetch_and_parse` (`parser.py` lines 184-212) as a function of the
document text and the override mapping. -/
def assemble (text : List Char) (overrides : List (List Char × List Char)) :
    Except Unit (List Poem) :=
  assembleGo overrides 0 (split_poems text)

/-- The override step in isolation (`parser.py` lines 199-200) lifted to a
record: replace the author exactly when the mapping contains the record's
slug. -/
def applyOvRec (overrides : List (List Char × List Char)) (r : Poem) : Poem :=
  ⟨r.index, r.title,
   (match lookupOv overrides r.slug with
    | some v => some v
    | none => r.author),
   r.slug, r.body⟩

/-! ## Basic lemmas about the string helpers -/

theorem dropWhile_head_not {α : Type} {p : α → Bool} :
    ∀ {l : List α} {a : α} {t : List α}, l.dropWhile p = a :: t → p a = false := by
  intro l
  induction l with
  | nil => intro a t h; simp [List.dropWhile] at h
  | cons c rest ih =>
    intro a t h
    by_cases hc : p c
    · rw [List.dropWhile_cons_of_pos hc] at h; exact ih h
    · rw [List.dropWhile_cons_of_neg hc] at h
      cases h
      simpa using hc

theorem dropWhile_dropWhile {α : Type} (p : α → Bool) (l : List α) :
    (l.dropWhile p).dropWhile p = l.dropWhile p := by
  cases h : l.dropWhile p with
  | nil => simp
  | cons a t =>
    have ha := dropWhile_head_not h
    rw [List.dropWhile_cons_of_neg (by simp [ha])]

theorem rdropWhile_append {α : Type} (p : α → Bool) (l : List α) :
    ∃ s, l = rdropWhile p l ++ s ∧ ∀ x ∈ s, p x := by
  refine ⟨(l.reverse.takeWhile p).reverse, ?_, ?_⟩
  · unfold rdropWhile
    rw [← List.reverse_append, List.takeWhile_append_dropWhile, List.reverse_reverse]
  · intro x hx
    rw [List.mem_reverse] at hx
    exact List.mem_takeWhile_imp hx

theorem rdropWhile_head {α : Type} {p : α → Bool} {l : List α} {a : α}
    {t : List α} (h : rdropWhile p l = a :: t) : ∃ t2, l = a :: t2 := by
  obtain ⟨s, hs, -⟩ := rdropWhile_append p l
  exact ⟨t ++ s, by rw [hs, h]; simp⟩

theorem rdropWhile_eq_nil_iff {α : Type} {p : α → Bool} {l : List α} :
    rdropWhile p l = [] ↔ ∀ x ∈ l, p x := by
  unfold rdropWhile
  rw [List.reverse_eq_nil_iff, List.dropWhile_eq_nil_iff]
  constructor
  · intro h x hx; exact h x (by simpa using hx)
  · intro h x hx; exact h x (by simpa using hx)

theorem rdropWhile_idem {α : Type} (p : α → Bool) (l : List α) :
    rdropWhile p (rdropWhile p l) = rdropWhile p l := by
  unfold rdropWhile
  rw [List.reverse_reverse, dropWhile_dropWhile]

theorem rdropWhile_last_not {α : Type} {p : α → Bool} {l : List α} {a : α}
    (h : (rdropWhile p l).getLast? = some a) : p a = false := by
  unfold rdropWhile at h
  rw [List.getLast?_reverse] at h
  cases hd : l.reverse.dropWhile p with
  | nil => rw [hd] at h; simp at h
  | cons b t =>
    rw [hd] at h
    simp at h
    subst h
    exact dropWhile_head_not hd

theorem mem_rdropWhile {α : Type} {p : α → Bool} {l : List α} {x : α}
    (h : x ∈ rdropWhile p l) : x ∈ l := by
  obtain ⟨s, hs, -⟩ := rdropWhile_append p l
  rw [hs]
  exact List.mem_append_left _ h

theorem mem_dropWhile {α : Type} {p : α → Bool} {l : List α} {x : α}
    (h : x ∈ l.dropWhile p) : x ∈ l :=
  (List.dropWhile_sublist p).subset h

theorem pystrip_idem (l : List Char) : pystrip (pystrip l) = pystrip l := by
  unfold pystrip
  cases h : rdropWhile pyIsSpace (l.dropWhile pyIsSpace) with
  | nil => rfl
  | cons a t =>
    obtain ⟨t2, ht2⟩ := rdropWhile_head h
    have ha : pyIsSpace a = false := dropWhile_head_not ht2
    rw [List.dropWhile_cons_of_neg (by simp [ha]), ← h, rdropWhile_idem]

theorem pystrip_eq_nil_iff {l : List Char} :
    pystrip l = [] ↔ l.all pyIsSpace := by
  unfold pystrip
  rw [rdropWhile_eq_nil_iff, List.all_eq_true]
  constructor
  · intro h x hx
    have hl := List.takeWhile_append_dropWhile pyIsSpace l
    rw [← hl, List.mem_append] at hx
    rcases hx with hx | hx
    · exact List.mem_takeWhile_imp hx
    · exact h x hx
  · intro h x hx
    exact h x (mem_dropWhile hx)

theorem blankL_eq (l : List Char) : blankL l = l.all pyIsSpace := by
  rw [Bool.eq_iff_iff]
  simp only [blankL, List.isEmpty_iff]
  exact pystrip_eq_nil_iff

theorem splitNl_ne_nil : ∀ cs : List Char, splitNl cs ≠ [] := by
  intro cs
  induction cs with
  | nil => simp [splitNl]
  | cons c rest ih =>
    by_cases hc : c = '\n'
    · simp [splitNl, hc]
    · simp only [splitNl, if_neg hc]
      cases h : splitNl rest with
      | nil => exact absurd h ih
      | cons l ls => simp

theorem splitNl_all_blank :
    ∀ cs : List Char, ((splitNl cs).all (fun l => l.all pyIsSpace)) = cs.all pyIsSpace := by
  intro cs
  induction cs with
  | nil => simp [splitNl]
  | cons c rest ih =>
    by_cases hc : c = '\n'
    · simp only [splitNl, if_pos hc, List.all_cons, List.all_nil, Bool.true_and, ih, hc]
      have : pyIsSpace '\n' = true := by decide
      simp [this, ih]
    · simp only [splitNl, if_neg hc]
      cases h : splitNl rest with
      | nil => exact absurd h (splitNl_ne_nil rest)
      | cons l ls =>
        rw [h] at ih
        simp only [List.all_cons] at ih ⊢
        rw [← ih, Bool.and_assoc]

/-- A chunk with a non-whitespace character has a non-blank line. -/
theorem trimmedLines_ne_nil {raw : List Char} (h : pystrip raw ≠ []) :
    trimmedLines raw ≠ [] := by
  intro hnil
  apply h
  rw [pystrip_eq_nil_iff]
  unfold trimmedLines rdropBlank at hnil
  rw [rdropWhile_eq_nil_iff] at hnil
  have hall : ∀ l ∈ splitNl raw, blankL l = true := by
    intro l hl
    have hsplit := List.takeWhile_append_dropWhile blankL (splitNl raw)
    rw [← hsplit, List.mem_append] at hl
    rcases hl with hl | hl
    · exact List.mem_takeWhile_imp hl
    · exact hnil l hl
  rw [← splitNl_all_blank, List.all_eq_true]
  intro l hl
  rw [← blankL_eq]
  exact hall l hl

/-- `parse_poem_chunk` answers `none` only for chunks that strip to
nothing. -/
theorem parse_ne_ok_none {c : List Char} (h : pystrip c ≠ []) :
    parse_poem_chunk c ≠ Except.ok none := by
  unfold parse_poem_chunk
  have ht : ¬ (trimmedLines c).isEmpty := by
    simpa [List.isEmpty_iff] using trimmedLines_ne_nil h
  rw [if_neg ht]
  cases (splitTrailing (trimmedLines c)).2 with
  | nil => simp
  | cons f rest => simp

/-- Every chunk emitted by the secondary split of a stripped, non-empty
chunk is itself stripped and non-empty. -/
theorem sotaF_mem :
    ∀ (fuel : Nat) (chunk : List Char), pystrip chunk = chunk → chunk ≠ [] →
      ∀ c ∈ sotaF fuel chunk, pystrip c = c ∧ c ≠ [] := by
  intro fuel
  induction fuel with
  | zero => intro chunk hs hn c hc; simp [sotaF] at hc; subst hc; exact ⟨hs, hn⟩
  | succ n ih =>
    intro chunk hs hn c hc
    unfold sotaF at hc
    cases hsearch : searchTA chunk with
    | none => rw [hsearch] at hc; simp at hc; subst hc; exact ⟨hs, hn⟩
    | some e =>
      rw [hsearch] at hc
      simp only at hc
      by_cases hg : (!(pystrip (chunk.take e)).isEmpty &&
          !(pystrip (chunk.drop e)).isEmpty) = true
      · rw [if_pos hg] at hc
        simp only [Bool.and_eq_true, Bool.not_eq_true', List.isEmpty_eq_false] at hg
        rcases List.mem_cons.1 hc with hc | hc
        · subst hc
          exact ⟨pystrip_idem _, by simpa [List.isEmpty_iff] using hg.1⟩
        · exact ih (pystrip (chunk.drop e)) (pystrip_idem _)
            (by simpa [List.isEmpty_iff] using hg.2) c hc
      · rw [if_neg hg] at hc
        simp at hc; subst hc; exact ⟨hs, hn⟩

/-- Every chunk produced by `split_poems` is stripped and non-empty. -/
theorem split_poems_mem {text : List Char} {c : List Char}
    (hc : c ∈ split_poems text) : pystrip c = c ∧ c ≠ [] := by
  unfold split_poems at hc
  simp only [List.mem_flatten, List.mem_map] at hc
  obtain ⟨l, ⟨ch, hch, rfl⟩, hcl⟩ := hc
  rw [List.mem_filter] at hch
  obtain ⟨hmem, hne⟩ := hch
  rw [List.mem_map] at hmem
  obtain ⟨piece, -, rfl⟩ := hmem
  exact sotaF_mem _ _ (pystrip_idem piece)
    (by simpa [List.isEmpty_iff] using hne) c hcl

/-- Indices produced by the assembler loop when no chunk is skipped. -/
theorem assembleGo_indices (ov : List (List Char × List Char)) :
    ∀ (cs : List (List Char)) (i : Nat) (ps : List Poem),
      (∀ c ∈ cs, parse_poem_chunk c ≠ Except.ok none) →
      assembleGo ov i cs = Except.ok ps →
      ps.map Poem.index = List.range' (i + 1) ps.length := by
  intro cs
  induction cs with
  | nil =>
    intro i ps _ h
    simp only [assembleGo] at h
    cases h
    simp
  | cons c rest ih =>
    intro i ps hno h
    unfold assembleGo at h
    cases hp : parse_poem_chunk c with
    | error e => rw [hp] at h; cases h
    | ok o =>
      cases o with
      | none => exact absurd hp (hno c (List.mem_cons_self c rest))
      | some p =>
        rw [hp] at h
        simp only at h
        cases hrec : assembleGo ov (i + 1) rest with
        | error e => rw [hrec] at h; cases h
        | ok ps2 =>
          rw [hrec] at h
          cases h
          have := ih (i + 1) ps2 (fun d hd => hno d (List.mem_cons_of_mem c hd)) hrec
          simp only [List.map_cons, List.length_cons, this]
          rw [List.range'_succ]

/-- C1: for every document text and every override map, whenever the
assembler returns a record list its `index` values are exactly
`1, 2, ..., n` in emission order.  No chunk is ever skipped: `split_poems`
emits only chunks that are non-empty after stripping, and
`parse_poem_chunk` answers `none` only for blank chunks, so the
`enumerate` counter coincides with the count of emitted records. -/
theorem assemble_indices_contiguous (text : List Char)
    (ov : List (List Char × List Char)) (ps : List Poem)
    (h : assemble text ov = Except.ok ps) :
    ps.map Poem.index = List.range' 1 ps.length := by
  have hchunks : ∀ c ∈ split_poems text, parse_poem_chunk c ≠ Except.ok none := by
    intro c hc
    obtain ⟨hs, hn⟩ := split_poems_mem hc
    exact parse_ne_ok_none (by rw [hs]; exact hn)
  exact assembleGo_indices ov (split_poems text) 0 ps hchunks h

/-- Witness for C1 at the concrete two-poem document `"A\n____\nB"`. -/
theorem assemble_indices_contiguous_witness :
    ([⟨1, str "A", none, str "a", []⟩, ⟨2, str "B", none, str "b", []⟩] :
        List Poem).map Poem.index = List.range' 1 2 :=
  assemble_indices_contiguous (str "A\n____\nB") []
    [⟨1, str "A", none, str "a", []⟩, ⟨2, str "B", none, str "b", []⟩] rfl

/-- The assembler with an override map is the assembler with the empty
map composed with the per-record override step. -/
theorem assembleGo_override_map (ov : List (List Char × List Char)) :
    ∀ (cs : List (List Char)) (i : Nat),
      assembleGo ov i cs =
        Except.map (List.map (applyOvRec ov)) (assembleGo [] i cs) := by
  intro cs
  induction cs with
  | nil => intro i; rfl
  | cons c rest ih =>
    intro i
    unfold assembleGo
    cases hp : parse_poem_chunk c with
    | error e => rfl
    | ok o =>
      cases o with
      | none => exact ih (i + 1)
      | some p =>
        simp only
        rw [ih (i + 1)]
        cases hrec : assembleGo [] (i + 1) rest with
        | error e => rfl
        | ok qs => rfl

/-- C9: the override step replaces a record's author with the mapped
value exactly when the map contains the record's slug, and never touches
`index`, `title`, `slug` or `body`: assembling with override map `ov`
equals assembling with the empty map and then applying `applyOvRec ov`
(which rewrites only the `author` field, by lookup on the record's slug)
to every record. -/
theorem assemble_override_frame (text : List Char)
    (ov : List (List Char × List Char)) :
    assemble text ov =
      Except.map (List.map (applyOvRec ov)) (assemble text []) :=
  assembleGo_override_map ov (split_poems text) 0

/-- C2: contrary to the never-raises contract, `parse_poem_chunk` raises
an uncaught `IndexError` on a chunk consisting solely of a trailing
attribution line: after the attribution line is removed, `lines[0]`
(`parser.py` line 97) indexes an empty list. -/
theorem parse_poem_chunk_raises_on_attribution_only_chunk :
    parse_poem_chunk (str "--Jane Doe") = Except.error () := rfl

/-- C5: contrary to the empty-mapping contract, `load_author_overrides`
raises for two of the store states it is claimed to tolerate: a readable
file whose contents are valid JSON but not an object (here the JSON text
`[]`) makes `data.get` raise `AttributeError`, and an unreadable file
raises `PermissionError`; neither is caught by the
`except (FileNotFoundError, json.JSONDecodeError)` clause
(`parser.py` line 180). -/
theorem load_author_overrides_raises :
    load_author_overrides (StoreState.content (Json.arr [])) = Except.error () ∧
      load_author_overrides StoreState.unreadable = Except.error () :=
  ⟨rfl, rfl⟩

/-- A line that does not start with two hyphens does not match the
trailing-attribution pattern. -/
theorem trailingMatch_eq_none {x : List Char}
    (h : startsWithL (str "--") x = false) : trailingMatch x = none := by
  unfold trailingMatch
  split
  · rename_i rest
    simp [startsWithL, str] at h
  · rfl

/-- Evaluation of `parse_poem_chunk` on a chunk whose post-attribution
line list is `f :: t`: the record is assembled from the header cascade
and the trailing author, exactly as in `parser.py` lines 96-147. -/
theorem parse_poem_chunk_eq (raw f : List Char) (t : List (List Char))
    (hl3 : (splitTrailing (trimmedLines raw)).2 = f :: t) :
    parse_poem_chunk raw = Except.ok (some
      ⟨(headerCascade (f :: t) (pystrip f)).1,
       (if pyFalsy (headerCascade (f :: t) (pystrip f)).2.1 &&
           !pyFalsy (splitTrailing (trimmedLines raw)).1
        then (splitTrailing (trimmedLines raw)).1
        else (headerCascade (f :: t) (pystrip f)).2.1),
       List.intercalate ['\n']
         (((f :: t).drop (headerCascade (f :: t) (pystrip f)).2.2).dropWhile blankL)⟩) := by
  have hne : ¬ (trimmedLines raw).isEmpty = true := by
    intro h
    rw [List.isEmpty_iff] at h
    rw [h] at hl3
    exact absurd hl3 (by simp [splitTrailing, pystrip, rdropWhile, trailingMatch])
  unfold parse_poem_chunk
  rw [if_neg hne, hl3]

/-- C10 counterexample: a chunk whose single line does not begin with two
hyphens, but whose stripped form does, makes `parse_poem_chunk` raise
(the attribution line is removed and `lines[0]` indexes an empty list),
so no record with that line as title is returned. -/
theorem single_line_indented_attribution_raises :
    parse_poem_chunk (str " --x") = Except.error () := rfl

/-- C10 (amended): for every chunk that trims to exactly one non-blank
line whose stripped form does not begin with two hyphens, the parser
returns a record with that stripped line as title, no author, and an
empty (not absent) body. -/
theorem single_line_chunk_record (raw l : List Char)
    (h1 : trimmedLines raw = [l])
    (h2 : startsWithL (str "--") (pystrip l) = false) :
    parse_poem_chunk raw = Except.ok (some ⟨pystrip l, none, []⟩) := by
  have hst : splitTrailing (trimmedLines raw) = (none, [l]) := by
    rw [h1]
    unfold splitTrailing
    rw [show ([l].getLast?.getD []) = l by simp]
    rw [trailingMatch_eq_none h2]
  have heq := parse_poem_chunk_eq raw l [] (by rw [hst])
  rw [hst] at heq
  rw [heq]
  rfl

/-- Witness for C10 at the concrete chunk `"  Hello  "`. -/
theorem single_line_chunk_record_witness :
    parse_poem_chunk (str "  Hello  ") = Except.ok (some ⟨str "Hello", none, []⟩) :=
  single_line_chunk_record (str "  Hello  ") (str "  Hello  ") rfl rfl

/-- C4 counterexample: the translator line is matched by
`^[Tt]ranslated\s+[Bb]y\s+`, which fixes the case of every letter except
the two initials, so the fully upper-cased line `TRANSLATED BY X` is not
skipped: it stays in the body and the body starts two (not three) lines
down. -/
theorem translated_uppercase_not_skipped :
    parse_poem_chunk (str "Title\nBy Author\nTRANSLATED BY X\nBody") =
      Except.ok (some
        ⟨str "Title", some (str "Author"), str "TRANSLATED BY X\nBody"⟩) := rfl

/-- C4 (amended): when line 2 matches `By <name>`/`by <name>` and the
following line matches `Translated By <name>` with each word's initial
letter in either case and the rest lower-case (the pattern
`[Tt]ranslated\s+[Bb]y\s+`), the parser skips that line, keeps the
original author, and starts the body one line later. -/
theorem translated_by_line_skipped (raw f s2 s3 g : List Char)
    (t : List (List Char))
    (hl3 : (splitTrailing (trimmedLines raw)).2 = f :: s2 :: s3 :: t)
    (hby : byMatch (pystrip s2) = some g)
    (htr : translatedMatch (pystrip s3) = true)
    (hg : pystrip g ≠ []) :
    parse_poem_chunk raw = Except.ok (some
      ⟨pystrip f, some (pystrip g),
       List.intercalate ['\n'] (t.dropWhile blankL)⟩) := by
  have heq := parse_poem_chunk_eq raw f (s2 :: s3 :: t) hl3
  have hcas : headerCascade (f :: s2 :: s3 :: t) (pystrip f) =
      (pystrip f, some (pystrip g), 3) := by
    simp [headerCascade, hby, htr]
  rw [hcas] at heq
  have hfal : pyFalsy (some (pystrip g)) = false := by
    simp only [pyFalsy, List.isEmpty_eq_false]
    exact hg
  rw [heq]
  simp [hfal]

/-- Witness for C4 at a concrete four-line chunk with a lower-case
translator line. -/
theorem translated_by_line_skipped_witness :
    parse_poem_chunk (str "T\nBy A\ntranslated by X\nBody") =
      Except.ok (some ⟨str "T", some (str "A"), str "Body"⟩) :=
  translated_by_line_skipped (str "T\nBy A\ntranslated by X\nBody")
    (str "T") (str "By A") (str "translated by X") (str "A") [str "Body"]
    rfl rfl rfl (by decide)

/-- C8 counterexample: a chunk whose last (and only) non-blank line
matches `--<name>` but which has no other non-blank line makes the
parser raise instead of returning a record with that author. -/
theorem attribution_only_chunk_no_record :
    parse_poem_chunk (str "--John Smith") = Except.error () := rfl

/-- C8 (amended): for every chunk whose last non-blank line matches
`--<name>` and which has at least one further non-blank line, the parser
drops the attribution line before computing the body, and the returned
author is the captured `<name>` exactly when the header cascade produced
no (truthy) author; a header-derived author takes precedence over the
trailing attribution. -/
theorem trailing_attribution_author_resolution (raw g f : List Char)
    (t : List (List Char))
    (hm : trailingMatch (pystrip ((trimmedLines raw).getLast?.getD [])) = some g)
    (hl3 : rdropBlank ((trimmedLines raw).dropLast) = f :: t)
    (hg : pystrip g ≠ []) :
    parse_poem_chunk raw = Except.ok (some
      ⟨(headerCascade (f :: t) (pystrip f)).1,
       (if pyFalsy (headerCascade (f :: t) (pystrip f)).2.1
        then some (pystrip g)
        else (headerCascade (f :: t) (pystrip f)).2.1),
       List.intercalate ['\n']
         (((f :: t).drop (headerCascade (f :: t) (pystrip f)).2.2).dropWhile blankL)⟩) := by
  have hst : splitTrailing (trimmedLines raw) = (some (pystrip g), f :: t) := by
    unfold splitTrailing
    rw [hm, hl3]
  have heq := parse_poem_chunk_eq raw f t (by rw [hst])
  rw [hst] at heq
  rw [heq]
  have hfal : pyFalsy (some (pystrip g)) = false := by
    simp only [pyFalsy, List.isEmpty_eq_false]
    exact hg
  simp [hfal]

/-- Witness for C8 at the spec's own example chunk
`"Title\n\nBody text\n\n--Jane Doe"`. -/
theorem trailing_attribution_author_resolution_witness :
    parse_poem_chunk (str "Title\n\nBody text\n\n--Jane Doe") =
      Except.ok (some
        ⟨str "Title", some (str "Jane Doe"), str "Body text"⟩) :=
  trailing_attribution_author_resolution
    (str "Title\n\nBody text\n\n--Jane Doe") (str "Jane Doe") (str "Title")
    [[], str "Body text"] rfl rfl (by decide)

/-- The first line kept by the blank-line trimming is not blank. -/
theorem trimmedLines_head_not_blank {raw f : List Char} {t : List (List Char)}
    (h : trimmedLines raw = f :: t) : blankL f = false := by
  unfold trimmedLines rdropBlank at h
  obtain ⟨t2, ht2⟩ := rdropWhile_head h
  exact dropWhile_head_not ht2

theorem dropLast_head {α : Type} {l : List α} {f : α} {s : List α}
    (h : l.dropLast = f :: s) : ∃ t2, l = f :: t2 := by
  cases l with
  | nil => simp at h
  | cons a l' =>
    cases l' with
    | nil => simp at h
    | cons b l'' =>
      rw [List.dropLast_cons₂] at h
      cases h
      exact ⟨_, rfl⟩

/-- The first line left after the trailing-attribution step is not
blank. -/
theorem afterTrailing_head_not_blank {raw f : List Char} {t : List (List Char)}
    (h : (splitTrailing (trimmedLines raw)).2 = f :: t) : blankL f = false := by
  unfold splitTrailing at h
  cases hm : trailingMatch (pystrip ((trimmedLines raw).getLast?.getD [])) with
  | none =>
    rw [hm] at h
    exact trimmedLines_head_not_blank h
  | some g =>
    rw [hm] at h
    simp only at h
    unfold rdropBlank at h
    obtain ⟨t2, ht2⟩ := rdropWhile_head h
    obtain ⟨t3, ht3⟩ := dropLast_head ht2
    exact trimmedLines_head_not_blank ht3

/-- C3 counterexample: the chunk `"Amiri Baraka\n\nSome body line"` is
non-empty after trimming, yet the reversed author/title rule fires on the
blank second line and the returned record has an empty title. -/
theorem known_author_blank_line_empty_title :
    parse_poem_chunk (str "Amiri Baraka\n\nSome body line") =
      Except.ok (some
        ⟨[], some (str "Amiri Baraka"), str "Some body line"⟩) := rfl

/-- C3 (amended): for every chunk that is non-empty after trimming, any
record the parser returns has a non-empty title, unless the chunk (after
trailing-attribution removal) starts with a known author name followed by
a blank line, in which case the reversed author/title rule makes the
title the empty string. -/
theorem parse_title_nonempty (raw : List Char) (r : Parsed)
    (h : parse_poem_chunk raw = Except.ok (some r))
    (hexc : reversedBlankShape ((splitTrailing (trimmedLines raw)).2) = false) :
    r.title ≠ [] := by
  cases hl3 : (splitTrailing (trimmedLines raw)).2 with
  | nil =>
    exfalso
    unfold parse_poem_chunk at h
    by_cases he : (trimmedLines raw).isEmpty = true
    · rw [if_pos he] at h
      simp at h
    · rw [if_neg he] at h
      simp only at h
      rw [hl3] at h
      simp at h
  | cons f t =>
    have heq := parse_poem_chunk_eq raw f t hl3
    rw [heq] at h
    simp only [Except.ok.injEq, Option.some.injEq] at h
    rw [← h]
    have hf : blankL f = false := afterTrailing_head_not_blank hl3
    have hpf : pystrip f ≠ [] := by
      simpa [blankL, List.isEmpty_iff] using hf
    rw [hl3] at hexc
    cases t with
    | nil => simpa [headerCascade] using hpf
    | cons s t2 =>
      simp only [reversedBlankShape, Bool.and_eq_false_iff] at hexc
      simp only [headerCascade]
      cases hby : byMatch (pystrip s) with
      | some g => simpa using hpf
      | none =>
        by_cases hk2 : isKnownAuthor (pystrip s) = true
        · simpa [hk2] using hpf
        · by_cases hk1 : isKnownAuthor (pystrip f) = true
          · simp only [hk2, hk1, Bool.not_false, Bool.and_true, if_neg, if_pos]
            rcases hexc with hbs | hk1f
            · simpa [blankL, List.isEmpty_iff] using hbs
            · exact absurd hk1 (by simp [hk1f])
          · simpa [hk2, hk1] using hpf

/-- Witness for C3 at the concrete chunk `"T\nBy A\n\nB"`. -/
theorem parse_title_nonempty_witness : str "T" ≠ ([] : List Char) :=
  parse_title_nonempty (str "T\nBy A\n\nB") ⟨str "T", some (str "A"), str "B"⟩
    rfl rfl

/-! ## Lemmas about the slug pipeline -/

theorem subRunsAux_mem :
    ∀ (l : List Char) (b : Bool) (c : Char), c ∈ subRunsAux b l →
      isLowerAlnum c = true ∨ c = '-' := by
  intro l
  induction l with
  | nil => intro b c hc; simp [subRunsAux] at hc
  | cons a rest ih =>
    intro b c hc
    unfold subRunsAux at hc
    by_cases ha : isLowerAlnum a = true
    · rw [if_pos ha] at hc
      rcases List.mem_cons.1 hc with rfl | hc
      · exact Or.inl ha
      · exact ih false c hc
    · rw [if_neg ha] at hc
      cases b with
      | true => exact ih true c (by simpa using hc)
      | false =>
        simp only [Bool.false_eq_true, if_false] at hc
        rcases List.mem_cons.1 hc with rfl | hc
        · exact Or.inr rfl
        · exact ih true c hc

theorem subRunsAux_true_head :
    ∀ (l : List Char) (a : Char) (t : List Char),
      subRunsAux true l = a :: t → isLowerAlnum a = true := by
  intro l
  induction l with
  | nil => intro a t h; simp [subRunsAux] at h
  | cons c rest ih =>
    intro a t h
    unfold subRunsAux at h
    by_cases hc : isLowerAlnum c = true
    · rw [if_pos hc] at h
      cases h
      exact hc
    · rw [if_neg hc] at h
      simp only [if_pos] at h
      exact ih a t h

theorem hyphen_not_lowerAlnum : isLowerAlnum '-' = false := by decide

theorem noDoubleHyphen_subRunsAux :
    ∀ (l : List Char) (b : Bool), noDoubleHyphen (subRunsAux b l) = true := by
  intro l
  induction l with
  | nil => intro b; simp [subRunsAux, noDoubleHyphen]
  | cons c rest ih =>
    intro b
    unfold subRunsAux
    by_cases hc : isLowerAlnum c = true
    · rw [if_pos hc]
      cases hx : subRunsAux false rest with
      | nil => simp [noDoubleHyphen]
      | cons x xs =>
        have hnd := ih false
        rw [hx] at hnd
        unfold noDoubleHyphen
        rw [hnd]
        have : ¬ c = '-' := by
          intro hh
          rw [hh] at hc
          exact absurd hc (by simp [hyphen_not_lowerAlnum])
        simp [this]
    · rw [if_neg hc]
      cases b with
      | true => simpa using ih true
      | false =>
        simp only [Bool.false_eq_true, if_false]
        cases hx : subRunsAux true rest with
        | nil => simp [noDoubleHyphen]
        | cons x xs =>
          have hnd := ih true
          rw [hx] at hnd
          have hxa : isLowerAlnum x = true := subRunsAux_true_head rest x xs hx
          unfold noDoubleHyphen
          rw [hnd]
          have : ¬ x = '-' := by
            intro hh
            rw [hh] at hxa
            exact absurd hxa (by simp [hyphen_not_lowerAlnum])
          simp [this]

theorem noDoubleHyphen_tail {a : Char} {l : List Char}
    (h : noDoubleHyphen (a :: l) = true) : noDoubleHyphen l = true := by
  cases l with
  | nil => rfl
  | cons b t =>
    unfold noDoubleHyphen at h
    exact (Bool.and_eq_true_iff.1 h).2

theorem noDoubleHyphen_dropWhile (p : Char → Bool) :
    ∀ (l : List Char), noDoubleHyphen l = true →
      noDoubleHyphen (l.dropWhile p) = true := by
  intro l
  induction l with
  | nil => intro h; exact h
  | cons a t ih =>
    intro h
    by_cases ha : p a
    · rw [List.dropWhile_cons_of_pos ha]
      exact ih (noDoubleHyphen_tail h)
    · rw [List.dropWhile_cons_of_neg ha]
      exact h

theorem noDoubleHyphen_append_left :
    ∀ (l s : List Char), noDoubleHyphen (l ++ s) = true →
      noDoubleHyphen l = true := by
  intro l
  induction l with
  | nil => intro s _; rfl
  | cons a t ih =>
    intro s h
    cases t with
    | nil => rfl
    | cons b t2 =>
      rw [List.cons_append, List.cons_append] at h
      unfold noDoubleHyphen at h ⊢
      obtain ⟨h1, h2⟩ := Bool.and_eq_true_iff.1 h
      rw [h1]
      rw [← List.cons_append] at h2
      rw [ih s h2]
      rfl

theorem noDoubleHyphen_rdropWhile (p : Char → Bool) (l : List Char)
    (h : noDoubleHyphen l = true) :
    noDoubleHyphen (rdropWhile p l) = true := by
  obtain ⟨s, hs, -⟩ := rdropWhile_append p l
  rw [hs] at h
  exact noDoubleHyphen_append_left _ s h

/-- The characters of a slug are lower-case alphanumerics or hyphens. -/
theorem slugify_mem {l : List Char} {c : Char} (hc : c ∈ slugify l) :
    isLowerAlnum c = true ∨ c = '-' := by
  unfold slugify stripHyphens at hc
  exact subRunsAux_mem _ false c (mem_dropWhile (mem_rdropWhile hc))

theorem slugify_head {l : List Char} {a : Char} {t : List Char}
    (h : slugify l = a :: t) : ¬ a = '-' := by
  unfold slugify stripHyphens at h
  obtain ⟨t2, ht2⟩ := rdropWhile_head h
  have := dropWhile_head_not ht2
  simpa using this

theorem slugify_last {l : List Char} {a : Char}
    (h : (slugify l).getLast? = some a) : ¬ a = '-' := by
  unfold slugify stripHyphens at h
  have := rdropWhile_last_not h
  simpa using this

theorem slugify_noDouble (l : List Char) :
    noDoubleHyphen (slugify l) = true := by
  unfold slugify stripHyphens
  exact noDoubleHyphen_rdropWhile _ _
    (noDoubleHyphen_dropWhile _ _ (noDoubleHyphen_subRunsAux _ false))

/-- A list of slug characters with no double hyphen, no hyphen at either
end, is a fixed point of the run substitution. -/
theorem subRunsAux_fix :
    ∀ (t : List Char) (b : Bool),
      (∀ c ∈ t, isLowerAlnum c = true ∨ c = '-') →
      noDoubleHyphen t = true →
      t.getLast? ≠ some '-' →
      (b = true → t.head? ≠ some '-') →
      subRunsAux b t = t := by
  intro t
  induction t with
  | nil => intro b _ _ _ _; rfl
  | cons c rest ih =>
    intro b hmem hnd hlast hhead
    by_cases hc : isLowerAlnum c = true
    · unfold subRunsAux
      rw [if_pos hc]
      congr 1
      refine ih false (fun d hd => hmem d (List.mem_cons_of_mem c hd))
        (noDoubleHyphen_tail hnd) ?_ (by simp)
      intro hl
      apply hlast
      cases rest with
      | nil => simp at hl
      | cons x xs => rw [List.getLast?_cons_cons]; exact hl
    · have hch : c = '-' := by
        rcases hmem c (List.mem_cons_self c rest) with h | h
        · exact absurd h hc
        · exact h
      cases b with
      | true =>
        exfalso
        exact hhead rfl (by rw [hch]; rfl)
      | false =>
        unfold subRunsAux
        rw [if_neg hc]
        simp only [Bool.false_eq_true, if_false]
        rw [hch]
        congr 1
        refine ih true (fun d hd => hmem d (List.mem_cons_of_mem c hd))
          (noDoubleHyphen_tail hnd) ?_ ?_
        · intro hl
          apply hlast
          cases rest with
          | nil => simp at hl
          | cons x xs => rw [List.getLast?_cons_cons]; exact hl
        · intro _ hh
          cases rest with
          | nil => simp at hh
          | cons x xs =>
            simp only [List.head?_cons, Option.some.injEq] at hh
            rw [hch, hh] at hnd
            unfold noDoubleHyphen at hnd
            simp at hnd

theorem map_id_of {α : Type} (f : α → α) :
    ∀ l : List α, (∀ c ∈ l, f c = c) → l.map f = l := by
  intro l
  induction l with
  | nil => intro _; rfl
  | cons a t ih =>
    intro h
    rw [List.map_cons, h a (List.mem_cons_self a t),
      ih (fun c hc => h c (List.mem_cons_of_mem a hc))]

/-- Slug-shaped strings are fixed points of `slugify`. -/
theorem slugify_fix (t : List Char)
    (hmem : ∀ c ∈ t, isLowerAlnum c = true ∨ c = '-')
    (hnd : noDoubleHyphen t = true)
    (hhead : t.head? ≠ some '-')
    (hlast : t.getLast? ≠ some '-') :
    slugify t = t := by
  have hfil : t.filter isAsciiC = t := by
    rw [List.filter_eq_self]
    intro c hc
    rcases hmem c hc with h | h
    · simp only [isLowerAlnum, Bool.or_eq_true, Bool.and_eq_true,
        decide_eq_true_eq] at h
      simp only [isAsciiC, decide_eq_true_eq]
      omega
    · subst h; decide
  have hmap : t.map pyLower = t := by
    apply map_id_of
    intro c hc
    rcases hmem c hc with h | h
    · simp only [isLowerAlnum, Bool.or_eq_true, Bool.and_eq_true,
        decide_eq_true_eq] at h
      unfold pyLower
      rw [if_neg (by omega)]
    · subst h; decide
  have hsub : subRunsAux false t = t :=
    subRunsAux_fix t false hmem hnd hlast (by simp)
  have hdw : t.dropWhile (fun c => c = '-') = t := by
    cases t with
    | nil => rfl
    | cons a s =>
      rw [List.dropWhile_cons_of_neg]
      simp only [List.head?_cons, ne_eq, Option.some.injEq] at hhead
      simpa using hhead
  have hrdw : rdropWhile (fun c => c = '-') t = t := by
    unfold rdropWhile
    cases hr : t.reverse with
    | nil =>
      rw [List.dropWhile_nil, ← hr, List.reverse_reverse]
    | cons a s =>
      have ha : ¬ a = '-' := by
        intro hh
        apply hlast
        rw [← List.head?_reverse, hr, List.head?_cons, hh]
      rw [List.dropWhile_cons_of_neg (by simpa using ha), ← hr,
        List.reverse_reverse]
  unfold slugify nfkdAscii
  rw [hfil, hmap, hsub]
  unfold stripHyphens
  rw [hdw, hrdw]

/-- Re-running `slugify` on its own output changes nothing. -/
theorem slugify_slugify (l : List Char) :
    slugify (slugify l) = slugify l := by
  apply slugify_fix
  · intro c hc; exact slugify_mem hc
  · exact slugify_noDouble l
  · cases h : slugify l with
    | nil => simp
    | cons a t =>
      simp only [List.head?_cons, ne_eq, Option.some.injEq]
      exact slugify_head h
  · intro heq
    exact slugify_last heq rfl

/-- C7: for every title over ASCII letters, digits and spaces, the slug
contains only lower-case ASCII letters, digits and hyphens (hence no
upper-case letter and no whitespace), has no hyphen at either end, never
two consecutive hyphens, and is a fixed point of `slugify`. -/
theorem slugify_wellformed_idempotent (s : List Char)
    (h : ∀ c ∈ s, isTitleChar c = true) :
    (∀ c ∈ slugify s, isLowerAlnum c = true ∨ c = '-') ∧
    (∀ c ∈ slugify s, ¬ (65 ≤ c.toNat ∧ c.toNat ≤ 90)) ∧
    (∀ c ∈ slugify s, pyIsSpace c = false) ∧
    (slugify s).head? ≠ some '-' ∧
    (slugify s).getLast? ≠ some '-' ∧
    noDoubleHyphen (slugify s) = true ∧
    slugify (slugify s) = slugify s := by
  refine ⟨fun c hc => slugify_mem hc, ?_, ?_, ?_, ?_, slugify_noDouble s,
    slugify_slugify s⟩
  · intro c hc
    rcases slugify_mem hc with hm | hm
    · simp only [isLowerAlnum, Bool.or_eq_true, Bool.and_eq_true,
        decide_eq_true_eq] at hm
      omega
    · subst hm; decide
  · intro c hc
    rcases slugify_mem hc with hm | hm
    · rcases hs : pyIsSpace c with _ | _
      · rfl
      · exfalso
        have htn : c.toNat = 32 ∨ c.toNat = 9 ∨ c.toNat = 10 ∨
            c.toNat = 13 ∨ c.toNat = 11 ∨ c.toNat = 12 := by
          simp only [pyIsSpace, Bool.or_eq_true, decide_eq_true_eq] at hs
          rcases hs with ((((rfl | rfl) | rfl) | rfl) | rfl) | rfl <;> decide
        simp only [isLowerAlnum, Bool.or_eq_true, Bool.and_eq_true,
          decide_eq_true_eq] at hm
        omega
    · subst hm; decide
  · cases hsl : slugify s with
    | nil => simp
    | cons a t =>
      simp only [List.head?_cons, ne_eq, Option.some.injEq]
      exact slugify_head hsl
  · intro heq
    exact slugify_last heq rfl

/-- Witness for C7: the slug of `"Hello, World 42"` is a `slugify` fixed
point. -/
theorem slugify_wellformed_idempotent_witness :
    slugify (slugify (str "Hello World 42")) = slugify (str "Hello World 42") :=
  (slugify_wellformed_idempotent (str "Hello World 42") (by decide)).2.2.2.2.2.2

/-! ## Lemmas about the primary split -/

theorem fda_shift :
    ∀ (l : List Char) (n : Nat),
      findDelimAux l n =
        (findDelimAux l 0).map (fun se => (se.1 + n, se.2 + n)) := by
  intro l
  induction l with
  | nil => intro n; rfl
  | cons c t ih =>
    intro n
    by_cases hc : c = '\n'
    · by_cases hr : 4 ≤ (t.takeWhile (fun d => d = '_')).length
      · simp only [findDelimAux, if_pos hc, if_pos hr, Option.map_some']
        congr 1
        simp only [Prod.mk.injEq]
        omega
      · simp only [findDelimAux, if_pos hc, if_neg hr]
        rw [ih (n + 1), ih 1]
        cases findDelimAux t 0 with
        | none => rfl
        | some se =>
          simp only [Option.map_some']
          congr 1
          simp only [Prod.mk.injEq]
          omega
    · simp only [findDelimAux, if_neg hc]
      rw [ih (n + 1), ih 1]
      cases findDelimAux t 0 with
      | none => rfl
      | some se =>
        simp only [Option.map_some']
        congr 1
        simp only [Prod.mk.injEq]
        omega

theorem underscore_take :
    ∀ (k : Nat) (l : List Char),
      k ≤ (l.takeWhile (fun c => c = '_')).length →
      startsWithL (List.replicate k '_') l = true := by
  intro k
  induction k with
  | zero => intro l _; rfl
  | succ k ih =>
    intro l h
    cases l with
    | nil => simp [List.takeWhile] at h
    | cons c t =>
      by_cases hc : c = '_'
      · subst hc
        rw [List.takeWhile_cons_of_pos (by simp)] at h
        simp only [List.length_cons, Nat.succ_le_succ_iff] at h
        rw [List.replicate_succ]
        have hrest := ih t h
        simp [startsWithL, hrest]
      · rw [List.takeWhile_cons_of_neg (by simpa using hc)] at h
        simp at h

/-- In a chunk with no occurrence of newline-plus-four-underscores, the
delimiter scanner finds nothing. -/
theorem fda_clean_none :
    ∀ p : List Char, hasSub (str "\n____") p = false →
      findDelimAux p 0 = none := by
  intro p
  induction p with
  | nil => intro _; rfl
  | cons a t ih =>
    intro h
    simp only [hasSub, Bool.or_eq_false_iff] at h
    obtain ⟨hst, hsub⟩ := h
    by_cases hc : a = '\n'
    · have hr : ¬ 4 ≤ (t.takeWhile (fun d => d = '_')).length := by
        intro hge
        have h4 := underscore_take 4 t hge
        rw [show (List.replicate 4 '_') = ['_', '_', '_', '_'] from rfl] at h4
        subst hc
        simp [str, startsWithL, h4] at hst
      simp only [findDelimAux, if_pos hc, if_neg hr]
      rw [fda_shift, ih hsub]
      rfl
    · simp only [findDelimAux, if_neg hc]
      rw [fda_shift, ih hsub]
      rfl

/-- The delimiter scanner on `p ++ "\n____\n" ++ rest` with a clean `p`
matches exactly the separator. -/
theorem fda_boundary :
    ∀ (p rest : List Char), hasSub (str "\n____") p = false →
      findDelimAux (p ++ '\n' :: '_' :: '_' :: '_' :: '_' :: '\n' :: rest) 0 =
        some (p.length, p.length + 6) := by
  intro p
  induction p with
  | nil =>
    intro rest _
    simp [findDelimAux, List.takeWhile]
  | cons a t ih =>
    intro rest h
    simp only [hasSub, Bool.or_eq_false_iff] at h
    obtain ⟨hst, hsub⟩ := h
    by_cases hc : a = '\n'
    · have hr : ¬ 4 ≤
          (((t ++ '\n' :: '_' :: '_' :: '_' :: '_' :: '\n' :: rest).takeWhile
            (fun d => d = '_')).length) := by
        intro hge
        have h4 : startsWithL (List.replicate 4 '_') t = true := by
          apply underscore_take
          rw [List.takeWhile_append] at hge
          by_cases hfull : (t.takeWhile (fun d => d = '_')).length = t.length
          · rw [if_pos hfull] at hge
            rw [hfull]
            rw [show (('\n' :: '_' :: '_' :: '_' :: '_' :: '\n' :: rest).takeWhile
              (fun d => d = '_')) = [] from rfl] at hge
            simpa using hge
          · rwa [if_neg hfull] at hge
        rw [show (List.replicate 4 '_') = ['_', '_', '_', '_'] from rfl] at h4
        subst hc
        simp [str, startsWithL, h4] at hst
      rw [List.cons_append]
      simp only [findDelimAux, if_pos hc, if_neg hr]
      rw [fda_shift, ih rest hsub]
      simp only [Option.map_some', List.length_cons]
    · rw [List.cons_append]
      simp only [findDelimAux, if_neg hc]
      rw [fda_shift, ih rest hsub]
      simp only [Option.map_some', List.length_cons]

theorem intercalate_cons₂ (sep a b : List Char) (t : List (List Char)) :
    List.intercalate sep (a :: b :: t) =
      a ++ sep ++ List.intercalate sep (b :: t) := by
  simp [List.intercalate, List.intersperse]

theorem intercalate_length_ge :
    ∀ parts : List (List Char),
      parts.length ≤ (List.intercalate (str "\n____\n") parts).length + 1 := by
  intro parts
  match parts with
  | [] => simp
  | [p] => simp [List.intercalate]
  | p :: q :: t =>
    have ih := intercalate_length_ge (q :: t)
    rw [intercalate_cons₂]
    have hsep : (str "\n____\n").length = 6 := rfl
    simp only [List.length_append, List.length_cons] at ih ⊢
    omega

theorem resplitF_intercalate :
    ∀ (parts : List (List Char)) (fuel : Nat), parts ≠ [] →
      (∀ p ∈ parts, hasSub (str "\n____") p = false) →
      parts.length ≤ fuel + 1 →
      resplitF fuel (List.intercalate (str "\n____\n") parts) = parts := by
  intro parts
  match parts with
  | [] => intro fuel h _ _; exact absurd rfl h
  | [p] =>
    intro fuel _ hclean _
    have hnone : findDelimAux p 0 = none :=
      fda_clean_none p (hclean p (List.mem_cons_self p []))
    have hintc : List.intercalate (str "\n____\n") [p] = p := by
      simp [List.intercalate]
    rw [hintc]
    cases fuel with
    | zero => rfl
    | succ f => simp [resplitF, hnone]
  | p :: q :: t =>
    intro fuel hne hclean hfuel
    cases fuel with
    | zero => simp at hfuel
    | succ f =>
      rw [intercalate_cons₂]
      have hcleanp : hasSub (str "\n____") p = false :=
        hclean p (List.mem_cons_self p (q :: t))
      have hb := fda_boundary p
        (List.intercalate (str "\n____\n") (q :: t)) hcleanp
      have hsep : (str "\n____\n" : List Char) =
          '\n' :: '_' :: '_' :: '_' :: '_' :: '\n' :: [] := rfl
      have hres : p ++ str "\n____\n" ++ List.intercalate (str "\n____\n") (q :: t) =
          p ++ '\n' :: '_' :: '_' :: '_' :: '_' :: '\n' ::
            List.intercalate (str "\n____\n") (q :: t) := by
        rw [hsep]
        simp
      rw [hres]
      simp only [resplitF, hb]
      have htake : (p ++ '\n' :: '_' :: '_' :: '_' :: '_' :: '\n' ::
          List.intercalate (str "\n____\n") (q :: t)).take p.length = p := by
        have := List.take_left p ('\n' :: '_' :: '_' :: '_' :: '_' :: '\n' ::
          List.intercalate (str "\n____\n") (q :: t))
        exact this
      have hdrop : (p ++ '\n' :: '_' :: '_' :: '_' :: '_' :: '\n' ::
          List.intercalate (str "\n____\n") (q :: t)).drop (p.length + 6) =
          List.intercalate (str "\n____\n") (q :: t) := by
        have hassoc : p ++ '\n' :: '_' :: '_' :: '_' :: '_' :: '\n' ::
            List.intercalate (str "\n____\n") (q :: t) =
            (p ++ ['\n', '_', '_', '_', '_', '\n']) ++
              List.intercalate (str "\n____\n") (q :: t) := by
          simp
        rw [hassoc]
        have hlen : p.length + 6 = (p ++ ['\n', '_', '_', '_', '_', '\n']).length := by
          simp
        rw [hlen, List.drop_left]
      rw [htake, hdrop]
      have hrec := resplitF_intercalate (q :: t) f (by simp)
        (fun r hr => hclean r (List.mem_cons_of_mem p hr))
        (by simp only [List.length_cons] at hfuel ⊢; omega)
      rw [hrec]

theorem resplit_intercalate (parts : List (List Char)) (hne : parts ≠ [])
    (hclean : ∀ p ∈ parts, hasSub (str "\n____") p = false) :
    resplit (List.intercalate (str "\n____\n") parts) = parts := by
  unfold resplit
  apply resplitF_intercalate parts _ hne hclean
  have := intercalate_length_ge parts
  omega

/-- A chunk in which the secondary pattern does not occur is returned
unchanged by the secondary split. -/
theorem splitOnTrailingAuthor_none {c : List Char}
    (h : searchTA c = none) : splitOnTrailingAuthor c = [c] := by
  unfold splitOnTrailingAuthor
  cases hl : c.length with
  | zero => rfl
  | succ k => simp [sotaF, h]

theorem flatten_singleton {α : Type} :
    ∀ l : List α, (l.map (fun c => [c])).flatten = l := by
  intro l
  induction l with
  | nil => rfl
  | cons a t ih => simp [ih]

theorem filter_map_length :
    ∀ parts : List (List Char),
      ((parts.map pystrip).filter (fun c => !c.isEmpty)).length =
        parts.length - (parts.filter (fun p => (pystrip p).isEmpty)).length := by
  intro parts
  induction parts with
  | nil => rfl
  | cons p t ih =>
    have hle := List.length_filter_le (fun p => (pystrip p).isEmpty) t
    by_cases hp : (pystrip p).isEmpty = true
    · simp only [List.map_cons, List.filter_cons, hp, Bool.not_true,
        Bool.false_eq_true, if_false, if_true, List.length_cons]
      omega
    · simp only [List.map_cons, List.filter_cons, hp, Bool.not_false,
        Bool.false_eq_true, if_false, if_true, List.length_cons]
      omega

/-- C6 counterexample: three adjacent delimiter lines.  The split regex
consumes the newline after a separator, so the second separator line has
no preceding newline left to match on and is kept as a chunk: the code
returns three chunks `["a", "____", "b"]` where the claim predicts
`N + 1 - #empty = 3 + 1 - 2 = 2`. -/
theorem split_poems_adjacent_delimiters :
    split_poems (str "a\n____\n____\n____\nb") =
      [str "a", str "____", str "b"] := rfl

/-- C6 (amended): for every document assembled by joining N+1 parts with
the exact separator `"\n____\n"`, where no part contains a newline
followed by four underscores and no part triggers the trailing-attribution
secondary split, `split_poems` returns the parts in order, stripped,
minus those that are empty after trimming — in particular the chunk count
is (N+1) minus the number of blank parts. -/
theorem split_poems_delimiter_count (parts : List (List Char))
    (hne : parts ≠ [])
    (hclean : ∀ p ∈ parts, hasSub (str "\n____") p = false)
    (hta : ∀ p ∈ parts, searchTA (pystrip p) = none) :
    split_poems (List.intercalate (str "\n____\n") parts) =
      (parts.map pystrip).filter (fun c => !c.isEmpty) ∧
    (split_poems (List.intercalate (str "\n____\n") parts)).length =
      parts.length - (parts.filter (fun p => (pystrip p).isEmpty)).length := by
  have h1 : split_poems (List.intercalate (str "\n____\n") parts) =
      (parts.map pystrip).filter (fun c => !c.isEmpty) := by
    unfold split_poems
    rw [resplit_intercalate parts hne hclean]
    have hsing : ∀ c ∈ (parts.map pystrip).filter (fun c => !c.isEmpty),
        splitOnTrailingAuthor c = [c] := by
      intro c hc
      rw [List.mem_filter] at hc
      obtain ⟨hmem, -⟩ := hc
      rw [List.mem_map] at hmem
      obtain ⟨p, hp, rfl⟩ := hmem
      exact splitOnTrailingAuthor_none (hta p hp)
    show (List.map splitOnTrailingAuthor
        ((parts.map pystrip).filter (fun c => !c.isEmpty))).flatten =
      (parts.map pystrip).filter (fun c => !c.isEmpty)
    rw [List.map_congr_left hsing, flatten_singleton]
  refine ⟨h1, ?_⟩
  rw [h1]
  exact filter_map_length parts

/-- Witness for C6 with three parts, the middle one blank. -/
theorem split_poems_delimiter_count_witness :
    split_poems (str "P1\n____\n \n____\nP2") = [str "P1", str "P2"] ∧
    (split_poems (str "P1\n____\n \n____\nP2")).length = 3 - 1 :=
  split_poems_delimiter_count [str "P1", str " ", str "P2"]
    (by decide) (by decide) (by decide)

end Poesy
